import Mathlib

/-!
Verification of the Getis-Ord G statistic engine
(src/pysal/explore/esda/getisord.py) against its specification.

The engine code is embedded below over exact rational arithmetic:
pure numeric expressions become Lean functions on `ℚ`, the external
Weights Provider / Spatial Lag Operator / Normal-Tail utilities are
modelled from the spec as explicit parameters or definitions, and the
random draws consumed by the permutation code are passed in as oracle
arguments (the results of each call to the random number generator),
constrained by hypotheses stating the contract of those calls
(a draw of a permutation really is a permutation).
Fallible array accesses are modelled with `Option`.
-/

namespace GetisOrd

/-- Transform mode of the weights graph: binary or row-standardized
(the spec data model allows exactly these two modes). -/
inductive Transform where
  | binary
  | rowStd
  deriving DecidableEq

/-- Modelled from the spec: the external Weights Provider exposes a fixed
set of n locations and, for each location, its neighbor set.  The graph
is represented by its neighbor (adjacency) relation; the transform mode
only rescales edge weights and is tracked separately. -/
structure WeightsGraph (n : ℕ) where
  adj : Fin n → Fin n → Bool

variable {n : ℕ}

/-- Modelled from the spec: per-location neighbor count (cardinality). -/
def cardinality (g : WeightsGraph n) (i : Fin n) : ℕ :=
  (Finset.univ.filter (fun j => g.adj i j)).card

/-- Modelled from the spec: the maximum cardinality over all locations
(the `w.max_neighbors` attribute of the Weights Provider). -/
def maxNeighbors (g : WeightsGraph n) : ℕ :=
  Finset.univ.sup (fun i => cardinality g i)

/-- Modelled from the spec: effective edge weight under a transform mode.
Binary weights are 0/1; row-standardized weights rescale each row to sum
to 1, so each neighbor weight is 1/cardinality. -/
def weight (g : WeightsGraph n) (t : Transform) (i j : Fin n) : ℚ :=
  if g.adj i j then
    match t with
    | Transform.binary => 1
    | Transform.rowStd => 1 / (cardinality g i : ℚ)
  else 0

/-- Modelled from the spec: the Spatial Lag Operator,
result[i] = sum over j of weight(i,j,current transform) * vector[j]. -/
def lag (g : WeightsGraph n) (t : Transform) (y : Fin n → ℚ) (i : Fin n) : ℚ :=
  ∑ j, weight g t i j * y j

/-- Modelled from the spec: graph aggregate sum s0 (sum of all weights). -/
def s0 (g : WeightsGraph n) (t : Transform) : ℚ :=
  ∑ i, ∑ j, weight g t i j

/-- Modelled from the spec: graph aggregate sum s1 (standard second-moment
sum over the weight matrix). -/
def s1 (g : WeightsGraph n) (t : Transform) : ℚ :=
  (∑ i, ∑ j, (weight g t i j + weight g t j i) ^ 2) / 2

/-- Modelled from the spec: graph aggregate sum s2 (standard second-moment
sum over the weight matrix). -/
def s2 (g : WeightsGraph n) (t : Transform) : ℚ :=
  ∑ i, (∑ j, weight g t i j + ∑ j, weight g t j i) ^ 2

/-- Mean of a list of rationals (numpy mean: total divided by count). -/
def listMean (l : List ℚ) : ℚ := l.sum / (l.length : ℚ)

/-- Population variance of a list of rationals; numpy std is the square
root of this quantity (ddof = 0). -/
def popVar (l : List ℚ) : ℚ :=
  ((l.map (fun x => (x - listMean l) ^ 2)).sum) / (l.length : ℚ)

/-- Count of simulated values greater than or equal to the observed one
(`above = sim >= obs; larger = sum(above)`). -/
def countGE (l : List ℚ) (obs : ℚ) : ℕ :=
  (l.filter (fun s => obs ≤ s)).length

/-- Embeds the pseudo p-value computation shared by `G.__init__`
(lines 119-123) and `G_Local.__init__` (lines 368-372):
count the simulated values at or above the observed statistic, clamp to
the smaller tail, add one and divide by permutations plus one. -/
def pSimOf (P : ℕ) (l : List ℚ) (obs : ℚ) : ℚ :=
  let larger : ℤ := countGE l obs
  let larger2 : ℤ := if (P : ℤ) - larger < larger then (P : ℤ) - larger else larger
  ((larger2 : ℚ) + 1) / ((P : ℚ) + 1)

/-- Analytic moments of the global statistic. -/
structure GMoments where
  EG : ℚ
  EG2 : ℚ
  VG : ℚ
  b0 : ℚ
  b1 : ℚ
  b2 : ℚ
  b3 : ℚ
  b4 : ℚ

/-- Embeds `G.__moments` (getisord.py lines 130-160).  `w0 w1 w2` are the
aggregate sums the Weights Provider reports under the current transform. -/
def gMoments (nn : ℕ) (y : Fin n → ℚ) (w0 w1 w2 : ℚ) : GMoments :=
  let nq : ℚ := (nn : ℚ)
  let n2 : ℚ := nq * nq
  let EG : ℚ := w0 / (nq * (nq - 1))
  let s02 : ℚ := w0 * w0
  let b0 : ℚ := (n2 - 3 * nq + 3) * w1 - nq * w2 + 3 * s02
  let b1 : ℚ := (-1) * ((n2 - nq) * w1 - 2 * nq * w2 + 6 * s02)
  let b2 : ℚ := (-1) * (2 * nq * w1 - (nq + 3) * w2 + 6 * s02)
  let b3 : ℚ := 4 * (nq - 1) * w1 - 2 * (nq + 1) * w2 + 8 * s02
  let b4 : ℚ := w1 - w2 + s02
  let sy : ℚ := ∑ i, y i
  let sy2 : ℚ := ∑ i, y i * y i
  let sy3 : ℚ := ∑ i, y i * (y i * y i)
  let sy4 : ℚ := ∑ i, (y i * y i) * (y i * y i)
  let EG2NUM : ℚ := b0 * sy2 ^ 2 + b1 * sy4 + b2 * sy ^ 2 * sy2 + b3 * sy * sy3 + b4 * sy ^ 4
  let EG2DEN : ℚ := (sy ^ 2 - sy2) ^ 2 * nq * (nq - 1) * (nq - 2) * (nq - 3)
  let EG2 : ℚ := EG2NUM / EG2DEN
  { EG := EG, EG2 := EG2, VG := EG2 - EG ^ 2,
    b0 := b0, b1 := b1, b2 := b2, b3 := b3, b4 := b4 }

/-- Embeds `G.__calc` (lines 162-165): spatial lag, elementwise product
with y, sum, divided by the stored pairwise-product denominator. -/
def gCalc (g : WeightsGraph n) (t : Transform) (den_sum : ℚ) (y : Fin n → ℚ) : ℚ :=
  (∑ i, y i * lag g t y i) / den_sum

/-- Result record of the global engine `G`.  When permutations = 0 the
code leaves the simulation attributes unset; here the corresponding
fields hold the same formulas applied to an empty sample and are never
referred to by any property conditioned on permutations = 0. -/
structure GRes where
  G : ℚ
  EG : ℚ
  EG2 : ℚ
  VG : ℚ
  b0 : ℚ
  b1 : ℚ
  b2 : ℚ
  b3 : ℚ
  b4 : ℚ
  den_sum : ℚ
  z_norm : ℚ
  p_norm : ℚ
  sim : List ℚ
  p_sim : ℚ
  EG_sim : ℚ
  seG_sim : ℚ
  VG_sim : ℚ
  z_sim : ℚ
  p_z_sim : ℚ
  wTransform : Transform

/-- Embeds `G.__init__` (lines 100-128).  `tr0` is the transform mode the
graph carries when the caller enters; the code overwrites it with binary
(line 104, `w.transform = "B"`) and never restores it, so the
caller-visible mode on return is recorded in `wTransform`.  `draws` are
the results of the `np.random.permutation` calls (one bijection per
simulation round); `sqrtFn` and `cdf` are the square-root and standard
normal CDF capabilities. -/
def globalG (g : WeightsGraph n) (tr0 : Transform) (y : Fin n → ℚ) (P : ℕ)
    (draws : List (Equiv.Perm (Fin n))) (sqrtFn cdf : ℚ → ℚ) : GRes :=
  -- w.transform = "B"
  let m := gMoments n y (s0 g Transform.binary) (s1 g Transform.binary) (s2 g Transform.binary)
  -- den_sum = (y * y.T).sum() - (y * y).sum()
  let den_sum : ℚ := (∑ i, ∑ j, y i * y j) - ∑ i, y i * y i
  let Gv : ℚ := gCalc g Transform.binary den_sum y
  let z_norm : ℚ := (Gv - m.EG) / sqrtFn m.VG
  let p_norm : ℚ := 1 - cdf |z_norm|
  let sim : List ℚ := draws.map (fun d => gCalc g Transform.binary den_sum (fun i => y (d i)))
  let p_sim : ℚ := pSimOf P sim Gv
  let EG_sim : ℚ := sim.sum / (P : ℚ)
  let seG_sim : ℚ := sqrtFn (popVar sim)
  let VG_sim : ℚ := seG_sim ^ 2
  let z_sim : ℚ := (Gv - EG_sim) / seG_sim
  let p_z_sim : ℚ := 1 - cdf |z_sim|
  { G := Gv, EG := m.EG, EG2 := m.EG2, VG := m.VG,
    b0 := m.b0, b1 := m.b1, b2 := m.b2, b3 := m.b3, b4 := m.b4,
    den_sum := den_sum, z_norm := z_norm, p_norm := p_norm,
    sim := sim, p_sim := p_sim, EG_sim := EG_sim, seG_sim := seG_sim,
    VG_sim := VG_sim, z_sim := z_sim, p_z_sim := p_z_sim,
    wTransform := Transform.binary }

/-- Front end of the global engine on a raw list: the code performs no
input validation, so the only failure point is the dimension check inside
the sparse matrix-vector product of the Spatial Lag Operator, which
raises exactly when the flattened vector length differs from the graph
location count.  That failure is surfaced here as `Except.error`. -/
def globalGRun (y : List ℚ) (g : WeightsGraph n) (tr0 : Transform) (P : ℕ)
    (draws : List (Equiv.Perm (Fin n))) (sqrtFn cdf : ℚ → ℚ) : Except String GRes :=
  if h : y.length = n then
    Except.ok (globalG g tr0 (fun i => y.get (Fin.cast h.symm i)) P draws sqrtFn cdf)
  else
    Except.error "dimension mismatch in spatial lag"

/-- Checked read of the attribute vector at a raw integer index
(numpy fancy indexing raises IndexError when out of bounds). -/
def yAt (y : Fin n → ℚ) (idx : ℕ) : Option ℚ :=
  if h : idx < n then some (y ⟨idx, h⟩) else none

/-- Total variant of `yAt`, used on the specification side of the
conditional-permutation characterization (0 when out of bounds). -/
def yTotal (y : Fin n → ℚ) (idx : ℕ) : ℚ :=
  if h : idx < n then y ⟨idx, h⟩ else 0

/-- Checked selection `y[pool[pos]]`: a candidate position indexes into
the shuffled pool of other locations, whose entry indexes into y. -/
def poolDraw (y : Fin n → ℚ) (pl : List ℕ) (pos : ℕ) : Option ℚ :=
  match pl.get? pos with
  | some idx => yAt y idx
  | none => none

/-- Effectful map over a list that fails on the first failing element,
as the numpy fancy-indexing expression raises on any bad index. -/
def optList {α β : Type} (f : α → Option β) : List α → Option (List β)
  | [] => some []
  | a :: t =>
    match f a, optList f t with
    | some b, some bs => some (b :: bs)
    | _, _ => none

/-- Embeds the per-round randomized neighbor sum
`(y[idsi[rids[:, 0:wci]]]).sum(1)` for one round: take the first `wci`
candidate positions of the shared row (numpy slicing truncates silently),
select through the pool, sum the chosen y values. -/
def roundSum (y : Fin n → ℚ) (pl : List ℕ) (row : List ℕ) (wci : ℕ) : Option ℚ :=
  (optList (poolDraw y pl) (row.take wci)).map List.sum

/-- Specification-side value of `roundSum` written with total operations;
the conditional-permutation theorems prove the checked code computes
exactly this. -/
def specRoundVal (y : Fin n → ℚ) (pl : List ℕ) (row : List ℕ) (c : ℕ) : ℚ :=
  ((row.take c).map (fun p => yTotal y (pl.getD p 0))).sum

/-- Embeds the candidate-position matrix `rids` of `G_Local.__crand`
(line 387): each drawn permutation of `range(n-1)` truncated to its first
`k = max_neighbors + 1` entries. -/
def candidateRows (g : WeightsGraph n) (rowPerms : List (List ℕ)) : List (List ℕ) :=
  rowPerms.map (fun r => r.take (maxNeighbors g + 1))

/-- Embeds `G_Local.__crand` (lines 380-403).  The randomness is passed
in as oracles: `rowPerms` are the results of the per-round
`np.random.permutation(range(n-1))` calls and `pool i` is the result of
shuffling the array of the other location indices for location i
(`idsi = ids[ids != i]; np.random.shuffle(idsi)`).  The id order is the
positional one, so `__getCardinalities` is the cardinality function
itself.  Any out-of-bounds fancy index yields `none`. -/
def crand (g : WeightsGraph n) (tr : Transform) (star : Bool) (y : Fin n → ℚ)
    (ysum : ℚ) (rowPerms : List (List ℕ)) (pool : Fin n → List ℕ) :
    Option (List (List ℚ)) :=
  let rids := candidateRows g rowPerms
  let starQ : ℚ := if star then 1 else 0
  optList (fun i =>
      let den : ℚ := if tr = Transform.rowStd then (cardinality g i : ℚ) + starQ else 1
      (optList (fun row => roundSum y (pool i) row (cardinality g i)) rids).map
        (fun sums => sums.map (fun s =>
          ((s + y i * starQ) / den) / (ysum - (1 - starQ) * y i))))
    (List.finRange n)

/-- Result of `G_Local.calc` (lines 411-446) before inference fields. -/
structure LocalCalcRes (n : ℕ) where
  Gs : Fin n → ℚ
  EGs : Fin n → ℚ
  VGs : Fin n → ℚ
  Zs : Fin n → ℚ

/-- Embeds the observed local statistic of `G_Local.calc`: for G the lag
under the requested transform divided by the sum of the other values; for
G* the binary lag plus the focal value, divided by cardinality + 1 when
the requested transform is row-standardized, then divided by the total
sum. -/
def localGs (g : WeightsGraph n) (tr : Transform) (star : Bool) (y : Fin n → ℚ)
    (i : Fin n) : ℚ :=
  if star then
    let yl := lag g Transform.binary y i + y i
    let yl2 := if tr = Transform.rowStd then yl / ((cardinality g i : ℚ) + 1) else yl
    yl2 / (∑ j, y j)
  else
    lag g tr y i / ((∑ j, y j) - y i)

/-- Embeds `G_Local.calc` (lines 411-446): observed statistics and the
analytic moments.  `sqrtFn` is the square-root capability used for the
standardized score. -/
def localCalc (g : WeightsGraph n) (tr : Transform) (star : Bool) (y : Fin n → ℚ)
    (sqrtFn : ℚ → ℚ) : LocalCalcRes n :=
  let y_sum : ℚ := ∑ j, y j
  let y2_sum : ℚ := ∑ j, y j * y j
  let Gs := localGs g tr star y
  let N : ℚ := if star then (n : ℚ) else (n : ℚ) - 1
  let yl_mean : Fin n → ℚ :=
    if star then fun _ => y_sum / (n : ℚ) else fun i => (y_sum - y i) / N
  let s2v : Fin n → ℚ :=
    if star then fun _ => (∑ j, (y j - y_sum / (n : ℚ)) ^ 2) / (n : ℚ)
    else fun i => (y2_sum - y i * y i) / N - (yl_mean i) ^ 2
  let starN : ℚ := if star then 1 else 0
  let EGs_num : Fin n → ℚ :=
    if tr = Transform.binary then fun i => (cardinality g i : ℚ) + starN else fun _ => 1
  let VGs_num : Fin n → ℚ :=
    if tr = Transform.binary then
      fun i =>
        (((cardinality g i : ℚ) + starN) * (N - ((cardinality g i : ℚ) + starN))) / (N - 1)
    else fun _ => 1
  let EGs : Fin n → ℚ := fun i => EGs_num i / N
  let VGs : Fin n → ℚ := fun i => VGs_num i * (1 / N ^ 2) * (s2v i / (yl_mean i) ^ 2)
  { Gs := Gs, EGs := EGs, VGs := VGs,
    Zs := fun i => (Gs i - EGs i) / sqrtFn (VGs i) }

/-- Constructs the transposed simulation matrix `sim = np.transpose(rGs)`
as the list of its `P` rows (the matrix `rGs` is allocated as
`np.zeros((n, permutations))`). -/
def transposeL (P : ℕ) (m : List (List ℚ)) : List (List ℚ) :=
  (List.range P).map (fun r => m.map (fun row => row.getD r 0))

/-- Result record of the local engine `G_Local`. -/
structure GLocalRes (n : ℕ) where
  Gs : Fin n → ℚ
  EGs : Fin n → ℚ
  VGs : Fin n → ℚ
  Zs : Fin n → ℚ
  p_norm : Fin n → ℚ
  rGs : Fin n → List ℚ
  p_sim : Fin n → ℚ
  EG_sim : ℚ
  seG_sim : ℚ
  VG_sim : ℚ
  z_sim : Fin n → ℚ
  p_z_sim : Fin n → ℚ
  wTransform : Transform

/-- Embeds `G_Local.__init__` (lines 353-378).  `tr0` is the transform
mode the caller supplied on the graph (`self.w_original`); `calc`
restores it before the permutation step, so the caller-visible mode after
the call is `tr0`.  A failed fancy index inside the conditional
permutation aborts the call (`none`). -/
def localG (g : WeightsGraph n) (tr0 tr : Transform) (P : ℕ) (star : Bool)
    (y : Fin n → ℚ) (rowPerms : List (List ℕ)) (pool : Fin n → List ℕ)
    (sqrtFn cdf : ℚ → ℚ) : Option (GLocalRes n) :=
  let c := localCalc g tr star y sqrtFn
  let p_norm : Fin n → ℚ := fun i => 1 - cdf |c.Zs i|
  if P = 0 then
    some { Gs := c.Gs, EGs := c.EGs, VGs := c.VGs, Zs := c.Zs, p_norm := p_norm,
           rGs := fun _ => [], p_sim := fun _ => 0, EG_sim := 0, seG_sim := 0,
           VG_sim := 0, z_sim := fun _ => 0, p_z_sim := fun _ => 0,
           wTransform := tr0 }
  else
    match crand g tr star y (∑ j, y j) rowPerms pool with
    | none => none
    | some rows =>
      let rGs : Fin n → List ℚ := fun i => rows.getD i.val []
      let flat : List ℚ := (transposeL P rows).flatten
      let p_sim : Fin n → ℚ := fun i => pSimOf P (rGs i) (c.Gs i)
      let EG_sim : ℚ := listMean flat
      let seG_sim : ℚ := sqrtFn (popVar flat)
      let VG_sim : ℚ := seG_sim * seG_sim
      let z_sim : Fin n → ℚ := fun i => (c.Gs i - EG_sim) / seG_sim
      some { Gs := c.Gs, EGs := c.EGs, VGs := c.VGs, Zs := c.Zs, p_norm := p_norm,
             rGs := rGs, p_sim := p_sim, EG_sim := EG_sim, seG_sim := seG_sim,
             VG_sim := VG_sim, z_sim := z_sim,
             p_z_sim := fun i => 1 - cdf |z_sim i|,
             wTransform := tr0 }

/-- Front end of the local engine on a raw list, mirroring the flattening
of `G_Local.__init__`; as in the global engine the only length check in
the code path is the one inside the Spatial Lag Operator. -/
def localGRun (y : List ℚ) (g : WeightsGraph n) (tr0 tr : Transform) (P : ℕ)
    (star : Bool) (rowPerms : List (List ℕ)) (pool : Fin n → List ℕ)
    (sqrtFn cdf : ℚ → ℚ) : Option (GLocalRes n) :=
  if h : y.length = n then
    localG g tr0 tr P star (fun i => y.get (Fin.cast h.symm i)) rowPerms pool sqrtFn cdf
  else
    none

/-- Flattened n-by-permutations matrix of the simulated local values,
one row per location. -/
def flattenRows (n : ℕ) (rGs : Fin n → List ℚ) : List ℚ :=
  ((List.finRange n).map rGs).flatten

end GetisOrd

namespace GetisOrd

/-- A concrete path graph on four locations (0-1, 1-2, 2-3), used as the
explicit input of counterexamples and witnesses. -/
def cg : WeightsGraph 4 :=
  ⟨fun i j => (i.val + 1 == j.val) || (j.val + 1 == i.val)⟩

/-- A concrete attribute vector on four locations. -/
def cy : Fin 4 → ℚ := ![2, 3, 5, 7]

/-- A concrete shuffle oracle: the pool of location i is the list of the
other location indices (here the identity shuffle of `ids[ids != i]`). -/
def cpool : Fin 4 → List ℕ :=
  fun i => (List.range 4).filter (fun m => m != i.val)

/-- A concrete permutation-draw oracle for one simulation round: a
permutation of `range(n-1) = range 3`. -/
def crp : List (List ℕ) := [[2, 0, 1]]

/-- A concrete complete graph on three locations, used to exhibit runs
with n < 4. -/
def cg3 : WeightsGraph 3 :=
  ⟨fun i j => !(i.val == j.val)⟩

/-- C1, counterexample.  The spec demands that after any call the
caller-visible transform mode equals the mode before the call; the global
engine receives a row-standardized graph and leaves it binary
(line 104 sets `w.transform = "B"` and `G.__init__` never restores it). -/
theorem globalG_does_not_restore_transform :
    (globalG cg Transform.rowStd cy 0 [] id id).wTransform ≠ Transform.rowStd := by
  decide

/-- Every result the local engine actually returns carries the restored
caller transform mode (`self.w.transform = self.w_original` at the end of
`calc`, before the permutation step). -/
theorem localG_wTransform (g : WeightsGraph n) (tr0 tr : Transform) (P : ℕ)
    (star : Bool) (y : Fin n → ℚ) (rowPerms : List (List ℕ))
    (pool : Fin n → List ℕ) (f c : ℚ → ℚ) (r : GLocalRes n)
    (h : localG g tr0 tr P star y rowPerms pool f c = some r) :
    r.wTransform = tr0 := by
  unfold localG at h
  split at h
  · cases h
    rfl
  · split at h
    · cases h
    · cases h
      rfl

/-- C1, amended.  The local engine restores the caller-supplied transform
mode on every call that returns, for all star and transform choices; the
global engine always leaves the graph in binary transform. -/
theorem transform_after_call (g : WeightsGraph n) (tr0 tr : Transform) (P : ℕ)
    (star : Bool) (y : Fin n → ℚ) (draws : List (Equiv.Perm (Fin n)))
    (rowPerms : List (List ℕ)) (pool : Fin n → List ℕ) (f c : ℚ → ℚ)
    (h : (localG g tr0 tr P star y rowPerms pool f c).isSome) :
    ((localG g tr0 tr P star y rowPerms pool f c).get h).wTransform = tr0
    ∧ (globalG g tr0 y P draws f c).wTransform = Transform.binary := by
  refine ⟨?_, rfl⟩
  exact localG_wTransform g tr0 tr P star y rowPerms pool f c _ (Option.some_get h).symm

/-- C1, amended, witness at a concrete input (local call with a
row-standardized caller transform, global call alongside). -/
theorem transform_after_call_witness :
    ((localG cg Transform.rowStd Transform.rowStd 0 false cy [] (fun _ => []) id id).get
        (by decide)).wTransform = Transform.rowStd
    ∧ (globalG cg Transform.rowStd cy 0 [] id id).wTransform = Transform.binary :=
  transform_after_call cg Transform.rowStd Transform.rowStd 0 false cy [] [] (fun _ => [])
    id id (by decide)

/-- C2, counterexample.  The spec claims both engines fail fast when
n < 4; on a three-location input with matching lengths both engines run
to completion (the code contains no validation of n). -/
theorem engines_accept_small_n :
    ((globalGRun [1, 2, 3] cg3 Transform.binary 0 [] id id).toOption.isSome = true)
    ∧ ((localGRun [1, 2, 3] cg3 Transform.binary Transform.rowStd 0 false []
          (fun _ => []) id id).isSome = true) := by
  constructor
  · rfl
  · rfl

/-- C2, amended.  Neither engine validates its input up front: a run
fails exactly when the vector length differs from the graph location
count (the dimension check inside the Spatial Lag Operator), and a run
with n < 4 completes normally, producing degenerate analytic moments. -/
theorem engines_do_not_validate (y : List ℚ) (g : WeightsGraph n) (tr0 tr : Transform)
    (P : ℕ) (star : Bool) (draws : List (Equiv.Perm (Fin n)))
    (rowPerms : List (List ℕ)) (pool : Fin n → List ℕ) (f c : ℚ → ℚ) :
    ((globalGRun y g tr0 P draws f c).toOption.isSome = true ↔ y.length = n)
    ∧ ((localGRun y g tr0 tr 0 star rowPerms pool f c).isSome = true ↔ y.length = n) := by
  constructor
  · unfold globalGRun
    by_cases h : y.length = n
    · simp [h, Except.toOption]
    · simp [h, Except.toOption]
  · unfold localGRun localG
    by_cases h : y.length = n
    · simp [h]
    · simp [h]

/-- Helper: the code denominator (outer-product total minus the diagonal)
equals the squared vector sum minus the sum of squares. -/
theorem den_sum_eq_sq (y : Fin n → ℚ) :
    ((∑ i, ∑ j, y i * y j) - ∑ i, y i * y i)
      = (∑ i, y i) ^ 2 - ∑ i, (y i) ^ 2 := by
  rw [sq, Finset.sum_mul_sum]
  congr 1
  exact Finset.sum_congr rfl fun i _ => (sq (y i)).symm

/-- Helper: the observed global statistic as a closed formula. -/
theorem globalG_G_formula (g : WeightsGraph n) (tr0 : Transform) (y : Fin n → ℚ)
    (P : ℕ) (draws : List (Equiv.Perm (Fin n))) (f c : ℚ → ℚ) :
    (globalG g tr0 y P draws f c).G
      = (∑ i, ∑ j, weight g Transform.binary i j * (y i * y j))
        / ((∑ i, y i) ^ 2 - ∑ i, (y i) ^ 2) := by
  have hnum : (∑ i, y i * lag g Transform.binary y i)
      = ∑ i, ∑ j, weight g Transform.binary i j * (y i * y j) := by
    refine Finset.sum_congr rfl fun i _ => ?_
    rw [lag, Finset.mul_sum]
    exact Finset.sum_congr rfl fun j _ => by ring
  show gCalc g Transform.binary ((∑ i, ∑ j, y i * y j) - ∑ i, y i * y i) y = _
  rw [gCalc, den_sum_eq_sq, hnum]

/-- C4, confirmed.  The observed global statistic is the double sum of
binary weight times the product of attribute values, divided by the
squared total minus the sum of squares; the stored denominator equals the
sum of all distinct-index pairwise products. -/
theorem global_observed_statistic (g : WeightsGraph n) (tr0 : Transform) (y : Fin n → ℚ)
    (P : ℕ) (draws : List (Equiv.Perm (Fin n))) (f c : ℚ → ℚ) :
    (globalG g tr0 y P draws f c).G
      = (∑ i, ∑ j, weight g Transform.binary i j * (y i * y j))
        / ((∑ i, y i) ^ 2 - ∑ i, (y i) ^ 2)
    ∧ (globalG g tr0 y P draws f c).den_sum
      = ∑ i, ∑ j ∈ Finset.univ.erase i, y i * y j := by
  refine ⟨globalG_G_formula g tr0 y P draws f c, ?_⟩
  show ((∑ i, ∑ j, y i * y j) - ∑ i, y i * y i) = _
  rw [← Finset.sum_sub_distrib]
  refine Finset.sum_congr rfl fun i _ => ?_
  rw [Finset.sum_erase_eq_sub (Finset.mem_univ i)]

/-- C7, confirmed.  The analytic moments of the global engine satisfy the
stated closed-form expressions in n, the graph aggregates s0, s1, s2 and
the vector power sums. -/
theorem global_moments_formulas (g : WeightsGraph n) (tr0 : Transform) (y : Fin n → ℚ)
    (P : ℕ) (draws : List (Equiv.Perm (Fin n))) (f c : ℚ → ℚ) (hn : 4 ≤ n) :
    (globalG g tr0 y P draws f c).EG
      = s0 g Transform.binary / ((n : ℚ) * ((n : ℚ) - 1))
    ∧ (globalG g tr0 y P draws f c).b0
      = ((n : ℚ) ^ 2 - 3 * (n : ℚ) + 3) * s1 g Transform.binary
        - (n : ℚ) * s2 g Transform.binary + 3 * (s0 g Transform.binary) ^ 2
    ∧ (globalG g tr0 y P draws f c).b1
      = -(((n : ℚ) ^ 2 - (n : ℚ)) * s1 g Transform.binary
          - 2 * (n : ℚ) * s2 g Transform.binary + 6 * (s0 g Transform.binary) ^ 2)
    ∧ (globalG g tr0 y P draws f c).b2
      = -(2 * (n : ℚ) * s1 g Transform.binary
          - ((n : ℚ) + 3) * s2 g Transform.binary + 6 * (s0 g Transform.binary) ^ 2)
    ∧ (globalG g tr0 y P draws f c).b3
      = 4 * ((n : ℚ) - 1) * s1 g Transform.binary
        - 2 * ((n : ℚ) + 1) * s2 g Transform.binary + 8 * (s0 g Transform.binary) ^ 2
    ∧ (globalG g tr0 y P draws f c).b4
      = s1 g Transform.binary - s2 g Transform.binary + (s0 g Transform.binary) ^ 2
    ∧ (globalG g tr0 y P draws f c).EG2
      = ((globalG g tr0 y P draws f c).b0 * (∑ i, (y i) ^ 2) ^ 2
          + (globalG g tr0 y P draws f c).b1 * (∑ i, (y i) ^ 4)
          + (globalG g tr0 y P draws f c).b2 * (∑ i, y i) ^ 2 * (∑ i, (y i) ^ 2)
          + (globalG g tr0 y P draws f c).b3 * (∑ i, y i) * (∑ i, (y i) ^ 3)
          + (globalG g tr0 y P draws f c).b4 * (∑ i, y i) ^ 4)
        / (((∑ i, y i) ^ 2 - ∑ i, (y i) ^ 2) ^ 2
            * (n : ℚ) * ((n : ℚ) - 1) * ((n : ℚ) - 2) * ((n : ℚ) - 3))
    ∧ (globalG g tr0 y P draws f c).VG
      = (globalG g tr0 y P draws f c).EG2 - (globalG g tr0 y P draws f c).EG ^ 2 := by
  have h2 : (∑ i, y i * y i) = ∑ i, (y i) ^ 2 :=
    Finset.sum_congr rfl fun i _ => (sq (y i)).symm
  have h3 : (∑ i, y i * (y i * y i)) = ∑ i, (y i) ^ 3 :=
    Finset.sum_congr rfl fun i _ => by ring
  have h4 : (∑ i, (y i * y i) * (y i * y i)) = ∑ i, (y i) ^ 4 :=
    Finset.sum_congr rfl fun i _ => by ring
  have hb0 : (globalG g tr0 y P draws f c).b0
      = ((n : ℚ) * (n : ℚ) - 3 * (n : ℚ) + 3) * s1 g Transform.binary
        - (n : ℚ) * s2 g Transform.binary
        + 3 * (s0 g Transform.binary * s0 g Transform.binary) := rfl
  have hb1 : (globalG g tr0 y P draws f c).b1
      = (-1) * (((n : ℚ) * (n : ℚ) - (n : ℚ)) * s1 g Transform.binary
          - 2 * (n : ℚ) * s2 g Transform.binary
          + 6 * (s0 g Transform.binary * s0 g Transform.binary)) := rfl
  have hb2 : (globalG g tr0 y P draws f c).b2
      = (-1) * (2 * (n : ℚ) * s1 g Transform.binary
          - ((n : ℚ) + 3) * s2 g Transform.binary
          + 6 * (s0 g Transform.binary * s0 g Transform.binary)) := rfl
  have hb3 : (globalG g tr0 y P draws f c).b3
      = 4 * ((n : ℚ) - 1) * s1 g Transform.binary
        - 2 * ((n : ℚ) + 1) * s2 g Transform.binary
        + 8 * (s0 g Transform.binary * s0 g Transform.binary) := rfl
  have hb4 : (globalG g tr0 y P draws f c).b4
      = s1 g Transform.binary - s2 g Transform.binary
        + s0 g Transform.binary * s0 g Transform.binary := rfl
  have hEG2 : (globalG g tr0 y P draws f c).EG2
      = ((globalG g tr0 y P draws f c).b0 * (∑ i, y i * y i) ^ 2
          + (globalG g tr0 y P draws f c).b1 * (∑ i, (y i * y i) * (y i * y i))
          + (globalG g tr0 y P draws f c).b2 * (∑ i, y i) ^ 2 * (∑ i, y i * y i)
          + (globalG g tr0 y P draws f c).b3 * (∑ i, y i) * (∑ i, y i * (y i * y i))
          + (globalG g tr0 y P draws f c).b4 * (∑ i, y i) ^ 4)
        / (((∑ i, y i) ^ 2 - ∑ i, y i * y i) ^ 2
            * (n : ℚ) * ((n : ℚ) - 1) * ((n : ℚ) - 2) * ((n : ℚ) - 3)) := rfl
  refine ⟨rfl, by rw [hb0]; ring, by rw [hb1]; ring, by rw [hb2]; ring,
    by rw [hb3]; ring, by rw [hb4]; ring, ?_, rfl⟩
  rw [hEG2, h2, h3, h4]

/-- C7, witness at a concrete input with n = 4. -/
theorem global_moments_formulas_witness :
    4 ≤ 4
    ∧ (globalG cg Transform.binary cy 0 [] id id).EG
      = s0 cg Transform.binary / ((4 : ℚ) * ((4 : ℚ) - 1)) :=
  ⟨by norm_num, by
    have h := (global_moments_formulas cg Transform.binary cy 0 [] id id
      (by norm_num)).1
    simpa using h⟩

/-- C8, counterexample.  For the constant vector 0 the observed statistic
is a 0/0 form (NaN in the implementation, the junk value 0 here) while EG
is s0 / (n (n-1)) which is nonzero on the concrete graph, so the claimed
exact equality fails for the constant c = 0. -/
theorem global_constant_zero_vector_fails :
    (globalG cg Transform.binary (fun _ => 0) 0 [] id id).G
      ≠ (globalG cg Transform.binary (fun _ => 0) 0 [] id id).EG := by
  have hs0 : s0 cg Transform.binary = 6 := by
    simp only [s0, Fin.sum_univ_four]
    norm_num [weight, cg, show ((0 : Fin 4) : ℕ) = 0 from rfl,
      show ((1 : Fin 4) : ℕ) = 1 from rfl, show ((2 : Fin 4) : ℕ) = 2 from rfl,
      show ((3 : Fin 4) : ℕ) = 3 from rfl]
  have hG : (globalG cg Transform.binary (fun _ => 0) 0 [] id id).G = 0 := by
    rw [globalG_G_formula]
    norm_num
  have hEG : (globalG cg Transform.binary (fun _ => 0) 0 [] id id).EG
      = s0 cg Transform.binary / (((4 : ℕ) : ℚ) * (((4 : ℕ) : ℚ) - 1)) := rfl
  rw [hG, hEG, hs0]
  norm_num

/-- C8, amended.  For every constant vector with a nonzero constant on a
graph with n at least 4 locations, the observed global statistic equals
its analytic expectation exactly. -/
theorem global_constant_vector (g : WeightsGraph n) (tr0 : Transform) (P : ℕ)
    (draws : List (Equiv.Perm (Fin n))) (f c : ℚ → ℚ) (cst : ℚ)
    (hn : 4 ≤ n) (hc : cst ≠ 0) :
    (globalG g tr0 (fun _ => cst) P draws f c).G
      = (globalG g tr0 (fun _ => cst) P draws f c).EG := by
  rw [globalG_G_formula g tr0 (fun _ => cst) P draws f c]
  show _ = s0 g Transform.binary / ((n : ℚ) * ((n : ℚ) - 1))
  have hnum : (∑ i : Fin n, ∑ j : Fin n, weight g Transform.binary i j * (cst * cst))
      = cst ^ 2 * s0 g Transform.binary := by
    rw [s0, Finset.mul_sum]
    refine Finset.sum_congr rfl fun i _ => ?_
    rw [Finset.mul_sum]
    exact Finset.sum_congr rfl fun j _ => by ring
  have hden : ((∑ _i : Fin n, cst) ^ 2 - ∑ _i : Fin n, cst ^ 2)
      = cst ^ 2 * ((n : ℚ) * ((n : ℚ) - 1)) := by
    rw [Finset.sum_const, Finset.sum_const, Finset.card_univ, Fintype.card_fin]
    simp only [nsmul_eq_mul]
    ring
  rw [hnum, hden]
  have hnq : ((n : ℚ) * ((n : ℚ) - 1)) ≠ 0 := by
    have h4 : (4 : ℚ) ≤ (n : ℚ) := by exact_mod_cast hn
    have h0 : (0 : ℚ) < (n : ℚ) := by linarith
    have h1 : (0 : ℚ) < (n : ℚ) - 1 := by linarith
    positivity
  rw [mul_div_mul_left _ _ (pow_ne_zero 2 hc)]

/-- C8, amended, witness: the constant vector 1 on the concrete graph. -/
theorem global_constant_vector_witness :
    4 ≤ 4 ∧ (1 : ℚ) ≠ 0
    ∧ (globalG cg Transform.binary (fun _ => 1) 0 [] id id).G
      = (globalG cg Transform.binary (fun _ => 1) 0 [] id id).EG :=
  ⟨by norm_num, by norm_num,
    global_constant_vector cg Transform.binary 0 [] id id 1 (by norm_num) (by norm_num)⟩

/-- C9, confirmed.  The local G-star observed statistic is invariant
under scaling the attribute vector by a positive constant. -/
theorem localGs_scale_invariant (g : WeightsGraph n) (tr : Transform) (y : Fin n → ℚ)
    (a : ℚ) (ha : 0 < a) (i : Fin n) :
    localGs g tr true (fun j => a * y j) i = localGs g tr true y i := by
  have hlag : lag g Transform.binary (fun j => a * y j) i
      = a * lag g Transform.binary y i := by
    rw [lag, lag, Finset.mul_sum]
    exact Finset.sum_congr rfl fun j _ => by ring
  have hsum : (∑ j, a * y j) = a * ∑ j, y j := by
    rw [Finset.mul_sum]
  simp only [localGs, hlag, hsum, if_true, ite_true, cond_true]
  by_cases htr : tr = Transform.rowStd
  · simp only [if_pos htr]
    rw [show a * lag g Transform.binary y i + a * y i
        = a * (lag g Transform.binary y i + y i) by ring]
    rw [mul_div_assoc, mul_div_mul_left _ _ (ne_of_gt ha)]
  · simp only [if_neg htr]
    rw [show a * lag g Transform.binary y i + a * y i
        = a * (lag g Transform.binary y i + y i) by ring]
    rw [mul_div_mul_left _ _ (ne_of_gt ha)]

/-- C9, witness at a concrete input: scaling the concrete vector by 2
leaves the G-star statistic at location 0 unchanged. -/
theorem localGs_scale_invariant_witness :
    (0 : ℚ) < 2
    ∧ localGs cg Transform.rowStd true (fun j => 2 * cy j) 0
      = localGs cg Transform.rowStd true cy 0 :=
  ⟨by norm_num, localGs_scale_invariant cg Transform.rowStd cy 2 (by norm_num) 0⟩

/-- Helper: a run of `optList` that succeeds returns a list of the same
length as its input. -/
theorem optList_length {α β : Type} (f : α → Option β) (l : List α) (l2 : List β)
    (h : optList f l = some l2) : l2.length = l.length := by
  induction l generalizing l2 with
  | nil =>
    cases h
    rfl
  | cons a t ih =>
    simp only [optList] at h
    rcases hfa : f a with _ | b <;> rw [hfa] at h
    · cases h
    · rcases hot : optList f t with _ | bs <;> rw [hot] at h
      · cases h
      · cases h
        simp only [List.length_cons, ih bs hot]

/-- Helper: when every element succeeds with a described value, `optList`
succeeds with the mapped list. -/
theorem optList_map_eq {α β : Type} (f : α → Option β) (gf : α → β) (l : List α)
    (h : ∀ a ∈ l, f a = some (gf a)) : optList f l = some (l.map gf) := by
  induction l with
  | nil => rfl
  | cons a t ih =>
    simp only [optList]
    rw [h a (List.mem_cons_self a t), ih fun x hx => h x (List.mem_cons_of_mem a hx)]
    rfl

/-- Helper: a candidate position below the pool length selects the total
lookup value. -/
theorem poolDraw_eq (y : Fin n → ℚ) (pl : List ℕ) (pos : ℕ)
    (hpos : pos < pl.length) (hent : ∀ e ∈ pl, e < n) :
    poolDraw y pl pos = some (yTotal y (pl.getD pos 0)) := by
  unfold poolDraw
  rw [List.get?_eq_get hpos]
  have he : pl.get ⟨pos, hpos⟩ < n := hent _ (pl.get_mem _ _)
  have hgd : pl.getD pos 0 = pl.get ⟨pos, hpos⟩ := by
    rw [List.getD_eq_getElem?_getD, List.getElem?_eq_getElem hpos]
    rfl
  unfold yAt yTotal
  rw [hgd, dif_pos he]
  exact dif_pos he

/-- Helper: the checked per-round neighbor sum computes the total-formula
value whenever the row entries are below the pool length and the pool
entries are below n. -/
theorem roundSum_eq (y : Fin n → ℚ) (pl row : List ℕ) (cnum : ℕ)
    (hrow : ∀ e ∈ row, e < pl.length) (hent : ∀ e ∈ pl, e < n) :
    roundSum y pl row cnum = some (specRoundVal y pl row cnum) := by
  unfold roundSum specRoundVal
  rw [optList_map_eq (poolDraw y pl) (fun p => yTotal y (pl.getD p 0)) (row.take cnum)
    fun p hp => poolDraw_eq y pl p (hrow p (List.take_subset _ _ hp)) hent]
  rfl

/-- Helper: full characterization of the conditional-permutation matrix
under elementwise bounds on the oracles. -/
theorem crand_eq (g : WeightsGraph n) (tr : Transform) (star : Bool) (y : Fin n → ℚ)
    (ysum : ℚ) (rowPerms : List (List ℕ)) (pool : Fin n → List ℕ)
    (hrp : ∀ rp ∈ rowPerms, ∀ e ∈ rp, e < n - 1)
    (hpl : ∀ i, (pool i).length = n - 1)
    (hpe : ∀ i, ∀ e ∈ pool i, e < n) :
    crand g tr star y ysum rowPerms pool
      = some ((List.finRange n).map (fun i =>
          (candidateRows g rowPerms).map (fun row =>
            ((specRoundVal y (pool i) row (cardinality g i)
                + y i * (if star then 1 else 0))
              / (if tr = Transform.rowStd then
                  (cardinality g i : ℚ) + (if star then 1 else 0) else 1))
            / (ysum - (1 - (if star then 1 else 0)) * y i)))) := by
  unfold crand
  apply optList_map_eq
  intro i _
  have hrows : ∀ row ∈ candidateRows g rowPerms,
      roundSum y (pool i) row (cardinality g i)
        = some (specRoundVal y (pool i) row (cardinality g i)) := by
    intro row hrowmem
    rcases List.mem_map.mp hrowmem with ⟨rp, hrpmem, rfl⟩
    refine roundSum_eq y (pool i) _ _ (fun e he => ?_) (hpe i)
    rw [hpl i]
    exact hrp rp hrpmem e (List.take_subset _ _ he)
  rw [optList_map_eq _ _ _ hrows]
  simp only [Option.map_some', List.map_map]
  rfl

/-- Helper: the pool of the other location indices has n - 1 entries. -/
theorem filter_ne_length (n : ℕ) (i : Fin n) :
    ((List.range n).filter (fun m => m != i.val)).length = n - 1 := by
  rw [← List.Nodup.erase_eq_filter (List.nodup_range n) i.val,
    List.length_erase_of_mem (List.mem_range.mpr i.isLt), List.length_range]

/-- C10, confirmed.  Under the randomness contracts (each shared row is a
permutation of the n - 1 pool positions, each pool a shuffle of the other
location indices) and the data-model invariant that cardinality is at
most n - 1, every fancy index of the conditional permutation is in
bounds — the failure branch is unreachable — and the first-cardinality
column selection never truncates against the shared row width. -/
theorem crand_all_accesses_in_bounds (g : WeightsGraph n) (tr : Transform) (star : Bool)
    (y : Fin n → ℚ) (ysum : ℚ) (rowPerms : List (List ℕ)) (pool : Fin n → List ℕ)
    (hcard : ∀ i, cardinality g i ≤ n - 1)
    (hrp : ∀ rp ∈ rowPerms, rp.Perm (List.range (n - 1)))
    (hpool : ∀ i, (pool i).Perm ((List.range n).filter (fun m => m != i.val))) :
    (crand g tr star y ysum rowPerms pool).isSome = true
    ∧ ∀ i : Fin n, ∀ row ∈ candidateRows g rowPerms,
        (row.take (cardinality g i)).length = cardinality g i := by
  have hrp2 : ∀ rp ∈ rowPerms, ∀ e ∈ rp, e < n - 1 := fun rp hm e he =>
    List.mem_range.mp ((hrp rp hm).mem_iff.mp he)
  have hpl : ∀ i, (pool i).length = n - 1 := fun i => by
    rw [(hpool i).length_eq, filter_ne_length n i]
  have hpe : ∀ i, ∀ e ∈ pool i, e < n := fun i e he =>
    List.mem_range.mp (List.mem_of_mem_filter ((hpool i).mem_iff.mp he))
  refine ⟨?_, ?_⟩
  · rw [crand_eq g tr star y ysum rowPerms pool hrp2 hpl hpe]
    rfl
  · intro i row hrow
    rcases List.mem_map.mp hrow with ⟨rp, hm, rfl⟩
    have hrplen : rp.length = n - 1 := by
      rw [(hrp rp hm).length_eq, List.length_range]
    have h1 : cardinality g i ≤ maxNeighbors g := Finset.le_sup (Finset.mem_univ i)
    have h2 := hcard i
    rw [List.length_take, List.length_take, hrplen]
    omega

/-- C10, witness at a concrete four-location input with one simulation
round. -/
theorem crand_all_accesses_in_bounds_witness :
    (crand cg Transform.rowStd true cy (∑ j, cy j) crp cpool).isSome = true
    ∧ ∀ i : Fin 4, ∀ row ∈ candidateRows cg crp,
        (row.take (cardinality cg i)).length = cardinality cg i :=
  crand_all_accesses_in_bounds cg Transform.rowStd true cy (∑ j, cy j) crp cpool
    (by decide) (by decide) (by decide)

/-- C3, counterexample.  The spec describes the shared candidate rows as
truncated permutations of the range 0 to n - 3 inclusive; the code draws
permutations of `range(n - 1)`, so with n = 4 a legitimate draw places
the position 2 in a candidate row even though the claimed range tops out
below 4 - 2 = 2. -/
theorem candidate_positions_use_full_pool_range :
    [2, 0, 1].Perm (List.range (4 - 1))
    ∧ ¬ (∀ row ∈ candidateRows cg crp, ∀ e ∈ row, e < 4 - 2) := by
  decide

/-- C3, amended.  With candidate rows drawn as permutations of
`range(n - 1)` (not of the claimed smaller range) truncated to the first
maxCardinality + 1 entries, each location and round yields exactly the
described simulated value: the sum of y over the pool entries selected by
the first cardinality positions, plus y_i when star, divided by
cardinality + star when the requested transform is row-standardized and
by 1 otherwise, then divided by the observed normalization. -/
theorem crand_conditional_permutation (g : WeightsGraph n) (tr : Transform)
    (star : Bool) (y : Fin n → ℚ) (ysum : ℚ) (rowPerms : List (List ℕ))
    (pool : Fin n → List ℕ)
    (hrp : ∀ rp ∈ rowPerms, rp.Perm (List.range (n - 1)))
    (hpool : ∀ i, (pool i).Perm ((List.range n).filter (fun m => m != i.val))) :
    crand g tr star y ysum rowPerms pool
      = some ((List.finRange n).map (fun i =>
          (candidateRows g rowPerms).map (fun row =>
            ((specRoundVal y (pool i) row (cardinality g i)
                + y i * (if star then 1 else 0))
              / (if tr = Transform.rowStd then
                  (cardinality g i : ℚ) + (if star then 1 else 0) else 1))
            / (ysum - (1 - (if star then 1 else 0)) * y i)))) := by
  have hrp2 : ∀ rp ∈ rowPerms, ∀ e ∈ rp, e < n - 1 := fun rp hm e he =>
    List.mem_range.mp ((hrp rp hm).mem_iff.mp he)
  have hpl : ∀ i, (pool i).length = n - 1 := fun i => by
    rw [(hpool i).length_eq, filter_ne_length n i]
  have hpe : ∀ i, ∀ e ∈ pool i, e < n := fun i e he =>
    List.mem_range.mp (List.mem_of_mem_filter ((hpool i).mem_iff.mp he))
  exact crand_eq g tr star y ysum rowPerms pool hrp2 hpl hpe

/-- C3, amended, witness at the concrete four-location input. -/
theorem crand_conditional_permutation_witness :
    crand cg Transform.rowStd true cy (∑ j, cy j) crp cpool
      = some ((List.finRange 4).map (fun i =>
          (candidateRows cg crp).map (fun row =>
            ((specRoundVal cy (cpool i) row (cardinality cg i)
                + cy i * (if true then 1 else 0))
              / (if Transform.rowStd = Transform.rowStd then
                  (cardinality cg i : ℚ) + (if true then 1 else 0) else 1))
            / ((∑ j, cy j) - (1 - (if true then 1 else 0)) * cy i)))) :=
  crand_conditional_permutation cg Transform.rowStd true cy (∑ j, cy j) crp cpool
    (by decide) (by decide)

/-- Helper: the tail-clamping conditional equals the minimum of the two
tail counts. -/
theorem pSimOf_min_form (P : ℕ) (l : List ℚ) (obs : ℚ) :
    pSimOf P l obs
      = ((min ((countGE l obs : ℤ)) ((P : ℤ) - (countGE l obs : ℤ)) + 1 : ℤ) : ℚ)
        / ((P : ℚ) + 1) := by
  simp only [pSimOf]
  by_cases h : (P : ℤ) - (countGE l obs : ℤ) < (countGE l obs : ℤ)
  · rw [if_pos h, min_eq_right (le_of_lt h)]
    push_cast
    ring
  · rw [if_neg h, min_eq_left (not_lt.mp h)]
    push_cast
    ring

/-- Helper: the pseudo p-value lies between 1/(P+1) and 1 whenever the
simulated sample has exactly P entries. -/
theorem pSimOf_bounds (P : ℕ) (l : List ℚ) (obs : ℚ) (hP : 0 < P)
    (hlen : l.length = P) :
    1 / ((P : ℚ) + 1) ≤ pSimOf P l obs ∧ pSimOf P l obs ≤ 1 := by
  have ha : (countGE l obs : ℤ) ≤ (P : ℤ) := by
    have h1 : countGE l obs ≤ P := hlen ▸ List.length_filter_le _ l
    exact_mod_cast h1
  have h0 : (0 : ℤ) ≤ (countGE l obs : ℤ) := Int.ofNat_nonneg _
  have hmin0 : 0 ≤ min ((countGE l obs : ℤ)) ((P : ℤ) - (countGE l obs : ℤ)) := by omega
  have hminP : min ((countGE l obs : ℤ)) ((P : ℤ) - (countGE l obs : ℤ)) ≤ (P : ℤ) := by
    omega
  have hden : (0 : ℚ) < (P : ℚ) + 1 := by positivity
  rw [pSimOf_min_form]
  constructor
  · rw [div_le_div_iff_of_pos_right hden]
    exact_mod_cast (by omega :
      (1 : ℤ) ≤ min ((countGE l obs : ℤ)) ((P : ℤ) - (countGE l obs : ℤ)) + 1)
  · rw [div_le_one hden]
    exact_mod_cast (by omega :
      min ((countGE l obs : ℤ)) ((P : ℤ) - (countGE l obs : ℤ)) + 1 ≤ (P : ℤ) + 1)

/-- Helper: the randomness contracts stated as permutations give the
elementwise bounds the conditional permutation needs. -/
theorem perm_contracts_bounds (rowPerms : List (List ℕ)) (pool : Fin n → List ℕ)
    (hrp : ∀ rp ∈ rowPerms, rp.Perm (List.range (n - 1)))
    (hpool : ∀ i, (pool i).Perm ((List.range n).filter (fun m => m != i.val))) :
    (∀ rp ∈ rowPerms, ∀ e ∈ rp, e < n - 1)
    ∧ (∀ i, (pool i).length = n - 1)
    ∧ (∀ i, ∀ e ∈ pool i, e < n) := by
  refine ⟨fun rp hm e he => List.mem_range.mp ((hrp rp hm).mem_iff.mp he),
    fun i => by rw [(hpool i).length_eq, filter_ne_length n i],
    fun i e he => List.mem_range.mp (List.mem_of_mem_filter ((hpool i).mem_iff.mp he))⟩

/-- Helper: the fields of a successful local-engine run with a positive
permutation count, in terms of the conditional-permutation matrix. -/
theorem localG_fields (g : WeightsGraph n) (tr0 tr : Transform) (P : ℕ) (star : Bool)
    (y : Fin n → ℚ) (rowPerms : List (List ℕ)) (pool : Fin n → List ℕ)
    (f c : ℚ → ℚ) (rows : List (List ℚ)) (r : GLocalRes n)
    (hP : ¬ P = 0)
    (hcr : crand g tr star y (∑ j, y j) rowPerms pool = some rows)
    (h : localG g tr0 tr P star y rowPerms pool f c = some r) :
    r.Gs = (localCalc g tr star y f).Gs
    ∧ r.rGs = (fun i => rows.getD i.val [])
    ∧ r.p_sim = (fun i => pSimOf P (rows.getD i.val []) ((localCalc g tr star y f).Gs i))
    ∧ r.EG_sim = listMean ((transposeL P rows).flatten)
    ∧ r.seG_sim = f (popVar ((transposeL P rows).flatten))
    ∧ r.VG_sim = r.seG_sim * r.seG_sim
    ∧ r.z_sim = (fun i => (r.Gs i - r.EG_sim) / r.seG_sim)
    ∧ r.p_z_sim = (fun i => 1 - c |r.z_sim i|) := by
  unfold localG at h
  rw [if_neg hP, hcr] at h
  cases h
  exact ⟨rfl, rfl, rfl, rfl, rfl, rfl, rfl, rfl⟩

/-- Helper: reading the image of `finRange` through `getD` recovers the
mapped function. -/
theorem map_finRange_getD {α : Type} (fn : Fin n → α) (i : Fin n) (d : α) :
    (((List.finRange n).map fn).getD i.val d) = fn i := by
  have hlen : i.val < ((List.finRange n).map fn).length := by
    rw [List.length_map, List.length_finRange]
    exact i.isLt
  rw [List.getD_eq_getElem?_getD, List.getElem?_eq_getElem hlen]
  simp

/-- Helper: a list of length n is recovered by tabulating its `getD`
reads over `finRange`. -/
theorem finRange_map_getD {α : Type} (l : List α) (d : α) (hl : l.length = n) :
    (List.finRange n).map (fun i => l.getD i.val d) = l := by
  refine List.ext_getElem ?_ ?_
  · rw [List.length_map, List.length_finRange, hl]
  · intro k h1 h2
    rw [List.getElem_map, List.getElem_finRange]
    rw [List.getD_eq_getElem?_getD]
    rw [List.getElem?_eq_getElem (by simpa using h2)]
    rfl

/-- Helper: the sum of a function mapped over `List.range` as a Finset
sum. -/
theorem sum_map_range {M : Type} [AddCommMonoid M] (gq : ℕ → M) (P : ℕ) :
    ((List.range P).map gq).sum = ∑ r ∈ Finset.range P, gq r := by
  induction P with
  | zero => rfl
  | succ m ih =>
    rw [List.range_succ, List.map_append, List.sum_append, Finset.sum_range_succ, ih]
    simp

/-- Helper: interchange of a Finset sum with a rowwise list sum. -/
theorem sum_swap_rows (mtx : List (List ℚ)) (h : ℕ → List ℚ → ℚ) (P : ℕ) :
    ∑ r ∈ Finset.range P, (mtx.map (h r)).sum
      = (mtx.map (fun row => ∑ r ∈ Finset.range P, h r row)).sum := by
  induction mtx with
  | nil => simp
  | cons a t ih => simp only [List.map_cons, List.sum_cons, Finset.sum_add_distrib, ih]

/-- Helper: summing the positionwise reads of a row over its length
recovers the rowwise sum. -/
theorem sum_getD_of_length (row : List ℚ) (f : ℚ → ℚ) :
    (∑ r ∈ Finset.range row.length, f (row.getD r 0)) = (row.map f).sum := by
  induction row with
  | nil => simp
  | cons a t ih =>
    rw [List.length_cons, Finset.sum_range_succ']
    simp only [List.getD_cons_succ, List.getD_cons_zero, List.map_cons, List.sum_cons]
    rw [ih, add_comm]

/-- Helper: transposing a rectangular matrix does not change the sum of
any function mapped over its entries. -/
theorem transposeL_flatten_map_sum (mtx : List (List ℚ)) (P : ℕ) (f : ℚ → ℚ)
    (hrect : ∀ row ∈ mtx, row.length = P) :
    (((transposeL P mtx).flatten.map f)).sum = ((mtx.flatten.map f)).sum := by
  rw [List.map_flatten, List.map_flatten, List.sum_flatten, List.sum_flatten]
  rw [transposeL]
  simp only [List.map_map, Function.comp_def]
  rw [sum_map_range]
  rw [sum_swap_rows mtx (fun r row => f (row.getD r 0)) P]
  refine congrArg List.sum (List.map_congr_left fun row hm => ?_)
  rw [← hrect row hm, sum_getD_of_length]

/-- Helper: transposing a rectangular matrix does not change the number
of entries. -/
theorem transposeL_flatten_length (mtx : List (List ℚ)) (P : ℕ)
    (hrect : ∀ row ∈ mtx, row.length = P) :
    (transposeL P mtx).flatten.length = mtx.flatten.length := by
  rw [List.length_flatten, List.length_flatten, transposeL]
  simp only [List.map_map, Function.comp_def, List.length_map]
  rw [sum_map_range, Finset.sum_const, Finset.card_range, smul_eq_mul]
  rw [show mtx.map List.length = mtx.map (fun _ => P) from
    List.map_congr_left fun row hm => hrect row hm]
  rw [List.map_const', List.sum_replicate, smul_eq_mul, mul_comm]

/-- Helper: the pooled mean of the transposed simulation matrix equals
the pooled mean of the untransposed one. -/
theorem transposeL_listMean (mtx : List (List ℚ)) (P : ℕ)
    (hrect : ∀ row ∈ mtx, row.length = P) :
    listMean ((transposeL P mtx).flatten) = listMean (mtx.flatten) := by
  unfold listMean
  rw [transposeL_flatten_length mtx P hrect]
  congr 1
  have h := transposeL_flatten_map_sum mtx P id hrect
  simpa using h

/-- Helper: the pooled population variance of the transposed simulation
matrix equals the pooled population variance of the untransposed one. -/
theorem transposeL_popVar (mtx : List (List ℚ)) (P : ℕ)
    (hrect : ∀ row ∈ mtx, row.length = P) :
    popVar ((transposeL P mtx).flatten) = popVar (mtx.flatten) := by
  unfold popVar
  rw [transposeL_listMean mtx P hrect, transposeL_flatten_length mtx P hrect,
    transposeL_flatten_map_sum mtx P (fun x => (x - listMean mtx.flatten) ^ 2) hrect]

/-- C5, confirmed.  For both engines with P > 0 permutations, the pseudo
p-value equals (min(larger, P - larger) + 1)/(P + 1) for larger the count
of simulated values at or above the observed statistic, and lies in the
interval between 1/(P + 1) and 1. -/
theorem p_sim_tail_formula (g : WeightsGraph n) (tr0 tr : Transform) (star : Bool)
    (y : Fin n → ℚ) (P : ℕ) (draws : List (Equiv.Perm (Fin n)))
    (rowPerms : List (List ℕ)) (pool : Fin n → List ℕ) (f c : ℚ → ℚ)
    (hP : 0 < P) (hdl : draws.length = P) (hrl : rowPerms.length = P)
    (hrp : ∀ rp ∈ rowPerms, rp.Perm (List.range (n - 1)))
    (hpool : ∀ i, (pool i).Perm ((List.range n).filter (fun m => m != i.val))) :
    ((globalG g tr0 y P draws f c).p_sim
        = ((min ((countGE (globalG g tr0 y P draws f c).sim
                  (globalG g tr0 y P draws f c).G : ℤ))
              ((P : ℤ) - (countGE (globalG g tr0 y P draws f c).sim
                  (globalG g tr0 y P draws f c).G : ℤ)) + 1 : ℤ) : ℚ)
          / ((P : ℚ) + 1)
      ∧ 1 / ((P : ℚ) + 1) ≤ (globalG g tr0 y P draws f c).p_sim
      ∧ (globalG g tr0 y P draws f c).p_sim ≤ 1)
    ∧ ∀ r, localG g tr0 tr P star y rowPerms pool f c = some r →
        ∀ i : Fin n,
          r.p_sim i
              = ((min ((countGE (r.rGs i) (r.Gs i) : ℤ))
                  ((P : ℤ) - (countGE (r.rGs i) (r.Gs i) : ℤ)) + 1 : ℤ) : ℚ)
                / ((P : ℚ) + 1)
          ∧ 1 / ((P : ℚ) + 1) ≤ r.p_sim i ∧ r.p_sim i ≤ 1 := by
  have hps : (globalG g tr0 y P draws f c).p_sim
      = pSimOf P (globalG g tr0 y P draws f c).sim (globalG g tr0 y P draws f c).G := rfl
  have hslen : ((globalG g tr0 y P draws f c).sim).length = P := by
    show (draws.map _).length = P
    rw [List.length_map, hdl]
  refine ⟨⟨hps.trans (pSimOf_min_form P _ _), ?_, ?_⟩, ?_⟩
  · rw [hps]
    exact (pSimOf_bounds P _ _ hP hslen).1
  · rw [hps]
    exact (pSimOf_bounds P _ _ hP hslen).2
  · obtain ⟨hb1, hb2, hb3⟩ := perm_contracts_bounds rowPerms pool hrp hpool
    have hcr := crand_eq g tr star y (∑ j, y j) rowPerms pool hb1 hb2 hb3
    intro r hr i
    obtain ⟨hGs, hrGs, hpsim, -, -, -, -, -⟩ :=
      localG_fields g tr0 tr P star y rowPerms pool f c _ r hP.ne' hcr hr
    have hrow : r.rGs i = (candidateRows g rowPerms).map (fun row =>
        ((specRoundVal y (pool i) row (cardinality g i)
            + y i * (if star then 1 else 0))
          / (if tr = Transform.rowStd then
              (cardinality g i : ℚ) + (if star then 1 else 0) else 1))
        / ((∑ j, y j) - (1 - (if star then 1 else 0)) * y i)) := by
      rw [hrGs]
      exact map_finRange_getD _ i []
    have hlen : (r.rGs i).length = P := by
      rw [hrow, List.length_map, candidateRows, List.length_map, hrl]
    have hpsi : r.p_sim i = pSimOf P (r.rGs i) (r.Gs i) := by
      rw [hpsim, hrGs, hGs]
    exact ⟨hpsi.trans (pSimOf_min_form P _ _),
      by rw [hpsi]; exact (pSimOf_bounds P _ _ hP hlen).1,
      by rw [hpsi]; exact (pSimOf_bounds P _ _ hP hlen).2⟩

/-- C5, witness at a concrete input with one permutation round in each
engine. -/
theorem p_sim_tail_formula_witness :
    ((globalG cg Transform.rowStd cy 1 [Equiv.refl (Fin 4)] id id).p_sim
        = ((min ((countGE (globalG cg Transform.rowStd cy 1 [Equiv.refl (Fin 4)] id id).sim
                  (globalG cg Transform.rowStd cy 1 [Equiv.refl (Fin 4)] id id).G : ℤ))
              ((1 : ℤ) - (countGE (globalG cg Transform.rowStd cy 1 [Equiv.refl (Fin 4)] id id).sim
                  (globalG cg Transform.rowStd cy 1 [Equiv.refl (Fin 4)] id id).G : ℤ)) + 1 : ℤ) : ℚ)
          / (((1 : ℕ) : ℚ) + 1)
      ∧ 1 / (((1 : ℕ) : ℚ) + 1)
          ≤ (globalG cg Transform.rowStd cy 1 [Equiv.refl (Fin 4)] id id).p_sim
      ∧ (globalG cg Transform.rowStd cy 1 [Equiv.refl (Fin 4)] id id).p_sim ≤ 1)
    ∧ ∀ r, localG cg Transform.rowStd Transform.rowStd 1 false cy crp cpool id id = some r →
        ∀ i : Fin 4,
          r.p_sim i
              = ((min ((countGE (r.rGs i) (r.Gs i) : ℤ))
                  ((1 : ℤ) - (countGE (r.rGs i) (r.Gs i) : ℤ)) + 1 : ℤ) : ℚ)
                / (((1 : ℕ) : ℚ) + 1)
          ∧ 1 / (((1 : ℕ) : ℚ) + 1) ≤ r.p_sim i ∧ r.p_sim i ≤ 1 :=
  p_sim_tail_formula cg Transform.rowStd Transform.rowStd false cy 1 [Equiv.refl (Fin 4)]
    crp cpool id id (by decide) (by decide) (by decide) (by decide) (by decide)

/-- C6, confirmed.  In the local engine with P > 0 the simulation summary
statistics are pooled scalars over the flattened n-by-P matrix — the
ensemble mean, the square-root capability applied to the ensemble
population variance, and its square — while z_sim and p_z_sim are
derived per location from those pooled scalars. -/
theorem local_sim_pooled_summary (g : WeightsGraph n) (tr0 tr : Transform) (star : Bool)
    (y : Fin n → ℚ) (P : ℕ) (rowPerms : List (List ℕ)) (pool : Fin n → List ℕ)
    (f c : ℚ → ℚ)
    (hP : 0 < P) (hrl : rowPerms.length = P)
    (hrp : ∀ rp ∈ rowPerms, rp.Perm (List.range (n - 1)))
    (hpool : ∀ i, (pool i).Perm ((List.range n).filter (fun m => m != i.val))) :
    ∀ r, localG g tr0 tr P star y rowPerms pool f c = some r →
      r.EG_sim = listMean (flattenRows n r.rGs)
      ∧ r.seG_sim = f (popVar (flattenRows n r.rGs))
      ∧ r.VG_sim = r.seG_sim * r.seG_sim
      ∧ (∀ i, r.z_sim i = (r.Gs i - r.EG_sim) / r.seG_sim)
      ∧ (∀ i, r.p_z_sim i = 1 - c |r.z_sim i|) := by
  obtain ⟨hb1, hb2, hb3⟩ := perm_contracts_bounds rowPerms pool hrp hpool
  have hcr := crand_eq g tr star y (∑ j, y j) rowPerms pool hb1 hb2 hb3
  intro r hr
  obtain ⟨-, hrGs, -, hEG, hseG, hVG, hz, hpz⟩ :=
    localG_fields g tr0 tr P star y rowPerms pool f c _ r hP.ne' hcr hr
  set rows := (List.finRange n).map (fun i =>
      (candidateRows g rowPerms).map (fun row =>
        ((specRoundVal y (pool i) row (cardinality g i)
            + y i * (if star then 1 else 0))
          / (if tr = Transform.rowStd then
              (cardinality g i : ℚ) + (if star then 1 else 0) else 1))
        / ((∑ j, y j) - (1 - (if star then 1 else 0)) * y i))) with hrows
  have hrowsn : rows.length = n := by
    rw [hrows, List.length_map, List.length_finRange]
  have hrect : ∀ row ∈ rows, row.length = P := by
    intro row hm
    rcases List.mem_map.mp hm with ⟨i, -, rfl⟩
    rw [List.length_map, candidateRows, List.length_map, hrl]
  have hflat : flattenRows n r.rGs = rows.flatten := by
    unfold flattenRows
    rw [hrGs]
    congr 1
    exact finRange_map_getD rows [] hrowsn
  refine ⟨?_, ?_, hVG, fun i => congrFun hz i, fun i => congrFun hpz i⟩
  · rw [hEG, transposeL_listMean rows P hrect, hflat]
  · rw [hseG, transposeL_popVar rows P hrect, hflat]

/-- C6, witness at a concrete input with one permutation round; the run
succeeds and every returned result satisfies the pooled-summary
characterization. -/
theorem local_sim_pooled_summary_witness :
    (localG cg Transform.rowStd Transform.rowStd 1 false cy crp cpool id id).isSome = true
    ∧ ∀ r, localG cg Transform.rowStd Transform.rowStd 1 false cy crp cpool id id = some r →
        r.EG_sim = listMean (flattenRows 4 r.rGs)
        ∧ r.seG_sim = id (popVar (flattenRows 4 r.rGs))
        ∧ r.VG_sim = r.seG_sim * r.seG_sim
        ∧ (∀ i, r.z_sim i = (r.Gs i - r.EG_sim) / r.seG_sim)
        ∧ (∀ i, r.p_z_sim i = 1 - id |r.z_sim i|) :=
  ⟨by decide,
    local_sim_pooled_summary cg Transform.rowStd Transform.rowStd false cy 1 crp cpool id id
      (by decide) (by decide) (by decide) (by decide)⟩

end GetisOrd
